import Mathlib

/-!
Shallow embedding of the card-generation core of the `flashcard_django`
repository, together with proofs about its allocation, deduplication,
sectioning, chunking and extraction logic.

Python strings are modelled as Lean `String`s (lists of characters);
Python `int`s as `Nat`/`Int` as appropriate.  External collaborators
(PyMuPDF, python-docx, the OpenAI client, tiktoken) are modelled as
function parameters.
-/

set_option autoImplicit false

/- ────────────────────────────────────────────────────────────────────
   `flashcards/ai/pipeline/core.py` — `_distribute_quota`

   def _distribute_quota(total: int, parts: int) -> list[int]:
       if parts <= 0:
           return []
       base, extra = divmod(total, parts)
       return [base + (1 if i < extra else 0) for i in range(parts)]
   ──────────────────────────────────────────────────────────────────── -/

def distribute_quota (total parts : Nat) : List Nat :=
  if parts = 0 then []
  else
    let base := total / parts
    let extra := total % parts
    (List.range parts).map (fun i => base + if i < extra then 1 else 0)

/- ────────────────────────────────────────────────────────────────────
   `flashcards/ai/analysis.py` — the per-section allocation
   normalization pass of `analyze_document` (lines 88-97):

       delta = recommended - sum(prelim)
       i = 0
       while delta != 0 and prelim:
           j = i % len(prelim)
           if delta > 0:
               prelim[j] += 1; delta -= 1
           else:
               if prelim[j] > 0:
                   prelim[j] -= 1; delta += 1
           i += 1

   The preliminary float-based shares (`1 + round(remaining * share)`)
   are abstracted as an arbitrary `List Nat`; the loop is embedded with
   explicit fuel (the Python loop runs unboundedly until `delta == 0`).
   ──────────────────────────────────────────────────────────────────── -/

def normLoop : Nat → List Nat → Int → Nat → List Nat
  | 0, prelim, _, _ => prelim
  | fuel + 1, prelim, delta, i =>
    if delta = 0 ∨ prelim.isEmpty then prelim
    else
      let j := i % prelim.length
      if 0 < delta then
        normLoop fuel (prelim.set j (prelim.getD j 0 + 1)) (delta - 1) (i + 1)
      else if 0 < prelim.getD j 0 then
        normLoop fuel (prelim.set j (prelim.getD j 0 - 1)) (delta + 1) (i + 1)
      else
        normLoop fuel prelim delta (i + 1)



/- ────────────────────────────────────────────────────────────────────
   `flashcards/ai/flashcard_gen.py` — `build_card_key`

   _KEY_RE = re.compile(r"[^a-z0-9]+")
   def build_card_key(front: str, back: str) -> str:
       base = f"{front} || {back}".lower()
       base = _KEY_RE.sub(" ", base)
       base = " ".join(base.split())
       return hashlib.sha1(base.encode("utf-8")).hexdigest()[:40]

   `str.lower` is modelled by `Char.toLower` (ASCII case mapping; a
   non-ASCII letter is not in `[a-z0-9]` either before or after
   lowering, so the subsequent substitution erases it in both the model
   and the original).  `hashlib.sha1` is implemented below bit-for-bit
   on byte lists, with 32-bit words carried as `Nat` reduced mod 2^32.
   ──────────────────────────────────────────────────────────────────── -/

/-- `[a-z0-9]`, the characters kept by `_KEY_RE`. -/
def isKeyChar (c : Char) : Bool :=
  (decide ('a' ≤ c) && decide (c ≤ 'z')) || (decide ('0' ≤ c) && decide (c ≤ '9'))

/-- `_KEY_RE.sub(" ", ·)`: replace every maximal run of non-`[a-z0-9]`
characters by a single space.  The flag records whether the previous
character was inside such a run. -/
def subNonKeyAux : Bool → List Char → List Char
  | _, [] => []
  | inRun, c :: rest =>
    if isKeyChar c then c :: subNonKeyAux false rest
    else if inRun then subNonKeyAux true rest
    else ' ' :: subNonKeyAux true rest

def subNonKey (l : List Char) : List Char := subNonKeyAux false l

/-- Python `str.split()` (no separator): split on whitespace runs,
dropping empty pieces.  The accumulator holds the current word reversed. -/
def pySplitAux : List Char → List Char → List (List Char)
  | [], acc => if acc.isEmpty then [] else [acc.reverse]
  | c :: rest, acc =>
    if c.isWhitespace then
      if acc.isEmpty then pySplitAux rest []
      else acc.reverse :: pySplitAux rest []
    else pySplitAux rest (c :: acc)

def pySplit (l : List Char) : List (List Char) := pySplitAux l []

/-- Python `str.strip()`: drop leading and trailing whitespace. -/
def pyStrip (s : String) : String :=
  String.mk (((s.data.dropWhile Char.isWhitespace).reverse.dropWhile
    Char.isWhitespace).reverse)

/-- Python slicing `s[:n]`. -/
def pyTake (n : Nat) (s : String) : String := String.mk (s.data.take n)

/-- `str.encode("utf-8")` for a single character. -/
def utf8Char (c : Char) : List Nat :=
  let n := c.toNat
  if n < 128 then [n]
  else if n < 2048 then [192 + n / 64, 128 + n % 64]
  else if n < 65536 then [224 + n / 4096, 128 + n / 64 % 64, 128 + n % 64]
  else [240 + n / 262144, 128 + n / 4096 % 64, 128 + n / 64 % 64, 128 + n % 64]

def utf8Encode (l : List Char) : List Nat := (l.map utf8Char).flatten

/- ───────────────────────── SHA-1 (hashlib.sha1) ───────────────────── -/

/-- 32-bit left rotation of a word carried as `Nat`. -/
def rotl (k x : Nat) : Nat := ((x <<< k) % 4294967296) ||| (x >>> (32 - k))

def sha1K (t : Nat) : Nat :=
  if t < 20 then 1518500249
  else if t < 40 then 1859775393
  else if t < 60 then 2400959708
  else 3395469782

def sha1F (t b c d : Nat) : Nat :=
  if t < 20 then (b &&& c) ||| ((b ^^^ 4294967295) &&& d)
  else if t < 40 then b ^^^ c ^^^ d
  else if t < 60 then (b &&& c) ||| (b &&& d) ||| (c &&& d)
  else b ^^^ c ^^^ d

/-- Big-endian 8-byte encoding of the bit length. -/
def bytes8BE (n : Nat) : List Nat :=
  [n >>> 56 % 256, n >>> 48 % 256, n >>> 40 % 256, n >>> 32 % 256,
   n >>> 24 % 256, n >>> 16 % 256, n >>> 8 % 256, n % 256]

/-- SHA-1 message padding: `0x80`, zeros to 56 mod 64, 64-bit length. -/
def sha1Pad (msg : List Nat) : List Nat :=
  let rem := (msg.length + 1) % 64
  let zeros := (120 - rem) % 64
  msg ++ 128 :: (List.replicate zeros 0 ++ bytes8BE (msg.length * 8))

/-- Big-endian 32-bit words from bytes. -/
def toWords32 : List Nat → List Nat
  | b0 :: b1 :: b2 :: b3 :: rest =>
    (((b0 * 256 + b1) * 256 + b2) * 256 + b3) :: toWords32 rest
  | _ => []

/-- Extend the 16 block words by `n` scheduled words
(`w[i] = rotl1 (w[i-3] xor w[i-8] xor w[i-14] xor w[i-16])`). -/
def sha1Schedule (w : List Nat) : Nat → List Nat
  | 0 => w
  | n + 1 =>
    let prev := sha1Schedule w n
    let ln := prev.length
    prev ++ [rotl 1 ((prev.getD (ln - 3) 0) ^^^ (prev.getD (ln - 8) 0)
      ^^^ (prev.getD (ln - 14) 0) ^^^ (prev.getD (ln - 16) 0))]

def sha1Round (st : Nat × Nat × Nat × Nat × Nat) (tw : Nat × Nat) :
    Nat × Nat × Nat × Nat × Nat :=
  let (a, b, c, d, e) := st
  let (t, w) := tw
  let temp := (rotl 5 a + sha1F t b c d + e + sha1K t + w) % 4294967296
  (temp, a, rotl 30 b, c, d)

def chunk64 (l : List Nat) : List (List Nat) :=
  if h : l = [] then []
  else l.take 64 :: chunk64 (l.drop 64)
termination_by l.length
decreasing_by
  simp only [List.length_drop]
  have hne : l.length ≠ 0 := fun h0 => h (List.length_eq_zero.mp h0)
  omega

def sha1Block (h5 : Nat × Nat × Nat × Nat × Nat) (block : List Nat) :
    Nat × Nat × Nat × Nat × Nat :=
  let (h0, h1, h2, h3, h4) := h5
  let w := sha1Schedule (toWords32 block) 64
  let (a, b, c, d, e) := w.enum.foldl sha1Round h5
  ((h0 + a) % 4294967296, (h1 + b) % 4294967296, (h2 + c) % 4294967296,
   (h3 + d) % 4294967296, (h4 + e) % 4294967296)

def sha1Init : Nat × Nat × Nat × Nat × Nat :=
  (1732584193, 4023233417, 2562383102, 271733878, 3285377520)

def hexDigit (n : Nat) : Char :=
  if n < 10 then Char.ofNat (48 + n) else Char.ofNat (87 + n)

def word8Hex (w : Nat) : List Char :=
  [hexDigit (w / 268435456 % 16), hexDigit (w / 16777216 % 16),
   hexDigit (w / 1048576 % 16), hexDigit (w / 65536 % 16),
   hexDigit (w / 4096 % 16), hexDigit (w / 256 % 16),
   hexDigit (w / 16 % 16), hexDigit (w % 16)]

/-- `hashlib.sha1(bytes).hexdigest()` as a character list. -/
def sha1HexChars (msg : List Nat) : List Char :=
  let r := (chunk64 (sha1Pad msg)).foldl sha1Block sha1Init
  word8Hex r.1 ++ word8Hex r.2.1 ++ word8Hex r.2.2.1
    ++ word8Hex r.2.2.2.1 ++ word8Hex r.2.2.2.2

/-- The word list of the normalized `(front, back)` pair: lower-cased,
non-alphanumerics collapsed, then split on whitespace.  This is the
"semantic content" that `build_card_key` hashes. -/
def normWords (front back : String) : List (List Char) :=
  pySplit (subNonKey ((front ++ " || " ++ back).data.map Char.toLower))

def build_card_key (front back : String) : String :=
  String.mk ((sha1HexChars (utf8Encode
    (List.intercalate [' '] (normWords front back)))).take 40)

def hexAlphabet : List Char := "0123456789abcdef".data


/- ────────────────────────────────────────────────────────────────────
   `flashcards/views.py` — `generate_deck`, persistence loop
   (lines 181-205):

       objs: list[Card] = []
       seen: set[str] = set()
       for c in cards:
           front = (c.get("front") or "").strip()
           back  = (c.get("back") or "").strip()
           if not front or not back:
               continue
           k = c.get("card_key") or build_card_key(front, back)
           if not k or k in seen:
               continue
           seen.add(k)
           objs.append(Card(deck=deck, front=front, back=back,
               excerpt=(c.get("excerpt") or "")[:500],
               page=int(c.get("page")) if isinstance(c.get("page"), int) else None,
               section=(c.get("section") or "").strip() or None,
               context=(c.get("context") or "").strip()[:20],
               card_key=k, distractors=c.get("distractors") or []))

   A candidate card (a JSON object from the generator) is modelled by
   `PyCard` with every field optional; a persisted `Card` row by `DbCard`.
   The `seen` set is modelled as a list of keys.
   ──────────────────────────────────────────────────────────────────── -/

structure PyCard where
  front : Option String
  back : Option String
  card_key : Option String
  excerpt : Option String
  page : Option Int
  sect : Option String        -- the "section" key (Lean keyword avoided)
  context : Option String
  distractors : Option (List String)
deriving DecidableEq

structure DbCard where
  front : String
  back : String
  excerpt : String
  page : Option Int
  sect : Option String        -- the "section" column
  context : String
  card_key : String
  distractors : List String
deriving DecidableEq

/-- `(c.get("front") or "").strip()`. -/
def objFront (c : PyCard) : String := pyStrip (c.front.getD "")

def objBack (c : PyCard) : String := pyStrip (c.back.getD "")

/-- `c.get("card_key") or build_card_key(front, back)` (an absent or empty
stored key falls back to the computed fingerprint). -/
def objKey (c : PyCard) : String :=
  match c.card_key with
  | some k => if k = "" then build_card_key (objFront c) (objBack c) else k
  | none => build_card_key (objFront c) (objBack c)

/-- The `Card(...)` row constructed for a kept candidate. -/
def mkDb (c : PyCard) : DbCard :=
  { front := objFront c
    back := objBack c
    excerpt := pyTake 500 (c.excerpt.getD "")
    page := c.page
    sect := (let s := pyStrip (c.sect.getD ""); if s = "" then none else some s)
    context := pyTake 20 (pyStrip (c.context.getD ""))
    card_key := objKey c
    distractors := c.distractors.getD [] }

/-- The persistence loop of `generate_deck`: emptiness filter, then
dedupe on `card_key` against the `seen` set. -/
def buildObjs : List PyCard → List String → List DbCard
  | [], _ => []
  | c :: cs, seen =>
    if objFront c = "" ∨ objBack c = "" then buildObjs cs seen
    else if objKey c = "" ∨ objKey c ∈ seen then buildObjs cs seen
    else mkDb c :: buildObjs cs (objKey c :: seen)

/-- A candidate with non-empty stripped `front` and `back` (the cards that
reach the dedupe check). -/
def validCard (c : PyCard) : Bool :=
  !(decide (objFront c = "")) && !(decide (objBack c = ""))

/-- Spec-side dedupe, from the claim's words: walk the candidates in
order and keep a card exactly when its key has not been seen before
(first occurrence wins). -/
def keepFirstByKey : List String → List PyCard → List PyCard
  | _, [] => []
  | seen, c :: cs =>
    if objKey c ∈ seen then keepFirstByKey seen cs
    else c :: keepFirstByKey (objKey c :: seen) cs


/-- A candidate with an empty `front` carrying the explicit key `"K"`
(used to test the dedupe claim). -/
def cardEmptyFrontK : PyCard :=
  { front := some "", back := some "b", card_key := some "K", excerpt := none,
    page := none, sect := none, context := none, distractors := none }

/-- A valid candidate carrying the same explicit key `"K"`. -/
def cardValidK : PyCard :=
  { front := some "x", back := some "y", card_key := some "K", excerpt := none,
    page := none, sect := none, context := none, distractors := none }

/-- A candidate whose `front` strips to the empty string. -/
def cardBlankFront : PyCard :=
  { front := some " ", back := some "b", card_key := some "K", excerpt := none,
    page := none, sect := none, context := none, distractors := none }


/- ────────────────────────────────────────────────────────────────────
   `flashcards/ai/analysis.py` — `analyze_document`, TOC → sections
   (lines 39-57):

       flat = [{"title": t, "page_start": p, "level": lvl}
               for (lvl, t, p) in toc if p >= 1 and p <= pages]
       flat.sort(key=lambda x: x["page_start"])
       sections = []
       for i, s in enumerate(flat):
           start = s["page_start"]
           end   = (flat[i+1]["page_start"] - 1) if i+1 < len(flat) else pages
           end   = max(start, end)
           sections.append({..., "page_start": start, "page_end": end, ...})

   The word counts are irrelevant to the page-range claims and are not
   modelled.  Python's stable `list.sort` is modelled by insertion sort
   on the `page_start` key (for the page ranges only the sorted key
   sequence matters).
   ──────────────────────────────────────────────────────────────────── -/

/-- The per-entry page ranges: each entry ends one page before the next
entry's start (clipped to `≥ start`), the last entry ends at `pages`. -/
def clipSections (pages : Nat) : List (String × Nat) → List (String × Nat × Nat)
  | [] => []
  | [x] => [(x.1, x.2, max x.2 pages)]
  | x :: y :: rest => (x.1, x.2, max x.2 (y.2 - 1)) :: clipSections pages (y :: rest)

/-- Filter the outline entries to pages in `[1, pages]` and sort by start
page. -/
def sortedFlat (pages : Nat) (toc : List (String × Int)) : List (String × Nat) :=
  List.insertionSort (fun a b => a.2 ≤ b.2)
    ((toc.filter (fun e => decide (1 ≤ e.2) && decide (e.2 ≤ (pages : Int)))).map
      (fun e => (e.1, e.2.toNat)))

def tocSections (pages : Nat) (toc : List (String × Int)) : List (String × Nat × Nat) :=
  clipSections pages (sortedFlat pages toc)

/-- The pages `[page_start .. page_end]` of one section. -/
def secPages (s : String × Nat × Nat) : List Nat :=
  List.range' s.2.1 (s.2.2 + 1 - s.2.1)

/-- The concatenated page ranges of a section list, in order. -/
def sectionsPageSpan (secs : List (String × Nat × Nat)) : List Nat :=
  (secs.map secPages).flatten

/- ────────────────────────────────────────────────────────────────────
   `flashcards/ai/pipeline/templater.py` — `_template_from_sections`
   and its inner helper `_even_ranges` (lines 252-318).
   ──────────────────────────────────────────────────────────────────── -/

structure Bullet where
  q : String
  a : String
deriving DecidableEq

structure TSection where
  title : String
  bullets : List Bullet
  page_start : Option Int
  page_end : Option Int
deriving DecidableEq

structure TItem where
  itemType : String           -- the "type" key
  term : String
  definition : String
  source_excerpt : String
  page : Int
  ordinal : Nat
deriving DecidableEq

structure OutSection where
  title : String
  page_start : Int
  page_end : Int
  items : List TItem
deriving DecidableEq

structure TocEntry where
  title : String
  page_start : Int
  page_end : Int
  ordinal_first : Nat
deriving DecidableEq

structure Template where
  version : String
  title : String
  pages : Nat
  sections : List OutSection
  toc : List TocEntry
deriving DecidableEq

/-- The clamped per-index ranges of `_even_ranges` before the final
first/last forcing:

       start = (i * total_pages) // n + 1
       end   = ((i + 1) * total_pages) // n
       start = max(1, min(start, total_pages))
       end   = max(start, min(end, total_pages))
-/
def evenRangesBase (m P : Nat) : List (Nat × Nat) :=
  (List.range m).map (fun i =>
    let start := i * P / m + 1
    let start' := max 1 (min start P)
    let e := (i + 1) * P / m
    (start', max start' (min e P)))

/-- `out[-1] = (out[-1][0], total_pages)`. -/
def setLastEnd (P : Nat) : List (Nat × Nat) → List (Nat × Nat)
  | [] => []
  | [x] => [(x.1, P)]
  | x :: y :: rest => x :: setLastEnd P (y :: rest)

/-- `_even_ranges(n, total_pages)`, including the input clamps
`total_pages = max(1, total_pages or 1)`, `n = max(1, n or 1)` and the
final coverage forcing `out[0] = (1, out[0][1])`,
`out[-1] = (out[-1][0], total_pages)`. -/
def even_ranges (n totalPages : Nat) : List (Nat × Nat) :=
  let P := max 1 totalPages
  let m := max 1 n
  match evenRangesBase m P with
  | [] => []
  | x :: rest => setLastEnd P ((1, x.2) :: rest)

/-- `ps, pe = (s.page_start, s.page_end)` when both are ints, else
`defaults[idx]`. -/
def sectionRange (s : TSection) (df : Nat × Nat) : Int × Int :=
  match s.page_start, s.page_end with
  | some a, some b => (a, b)
  | _, _ => ((df.1 : Int), (df.2 : Int))

/-- The section/toc assembly loop of `_template_from_sections`: a single
`ordinal` counter starts at 1 and increments once per emitted item.
Each input section is paired with its precomputed default range. -/
def buildOut : Nat → List (TSection × (Nat × Nat)) → List OutSection × List TocEntry
  | _, [] => ([], [])
  | ord, (s, df) :: rest =>
    let pr := sectionRange s df
    let items := s.bullets.enum.map (fun kb =>
      { itemType := "concept", term := kb.2.q, definition := kb.2.a,
        source_excerpt := kb.2.q ++ ": " ++ kb.2.a,
        page := pr.1, ordinal := ord + kb.1 : TItem })
    let next := buildOut (ord + s.bullets.length) rest
    ({ title := if s.title = "" then "Section" else s.title,
       page_start := pr.1, page_end := pr.2, items := items } :: next.1,
     { title := if s.title = "" then "Section" else s.title,
       page_start := pr.1, page_end := pr.2, ordinal_first := ord } :: next.2)

/-- `_template_from_sections(sections, pages=pages, title=title)`.
`defaults = _even_ranges(len(sections), pages)` has exactly
`len(sections)` entries whenever `sections` is non-empty, so pairing by
`zip` models the indexed access `defaults[idx]`. -/
def template_from_sections (sections : List TSection) (pages : Nat)
    (title : String) : Template :=
  let defaults := even_ranges sections.length pages
  let out := buildOut 1 (sections.zip defaults)
  { version := "study-template/llm-v1", title := title, pages := max 1 pages,
    sections := out.1, toc := out.2 }

/- ────────────────────────────────────────────────────────────────────
   `flashcards/ai/driver.py` — `run_extraction`, per-page fallback
   branch (lines 45-57):

       for i in range(doc.page_count):
           try: txt = doc.load_page(i).get_text("text") or ""
           except Exception: txt = ""
           txt = txt.strip()
           if txt:
               chunks.append((_trim_by_chars(txt, max_chars), i + 1, None))

   The extracted page texts are the input list; the `None` section title
   of fallback chunks is constant and omitted.
   ──────────────────────────────────────────────────────────────────── -/

def trim_by_chars (s : String) (maxChars : Nat) : String :=
  if s.length ≤ maxChars then s else pyTake (maxChars - 1) s

def pageFallbackAux (maxChars : Nat) : Nat → List String → List (String × Nat)
  | _, [] => []
  | i, t :: rest =>
    let txt := pyStrip t
    if txt = "" then pageFallbackAux maxChars (i + 1) rest
    else (trim_by_chars txt maxChars, i + 1) :: pageFallbackAux maxChars (i + 1) rest

def pageFallbackChunks (maxChars : Nat) (texts : List String) : List (String × Nat) :=
  pageFallbackAux maxChars 0 texts

/- ────────────────────────────────────────────────────────────────────
   `flashcards/ai/chunker.py` — `make_chunks` (lines 29-54).

   The tiktoken encoder is abstracted as a token-counting parameter
   `tokLen` (only the count `len(enc.encode(para))` is used).
   ──────────────────────────────────────────────────────────────────── -/

def newline2 : List Char := ['\n', '\n']

/-- Python `text.split("\n\n")`: greedy leftmost non-overlapping split on
the two-character separator. -/
def splitParas : List Char → List (List Char)
  | [] => [[]]
  | '\n' :: '\n' :: rest => [] :: splitParas rest
  | c :: rest =>
    match splitParas rest with
    | [] => [[c]]
    | p :: ps => (c :: p) :: ps

/-- The greedy buffer loop of `make_chunks`, returning the groups of
paragraphs (each output chunk is one group joined with `"\n\n"`):

       for para in paragraphs:
           ptokens = len(enc.encode(para))
           if token_tally + ptokens > max_tokens and buffer:
               chunks.append("\n\n".join(buffer)); buffer, token_tally = [], 0
           buffer.append(para); token_tally += ptokens
       if buffer: chunks.append("\n\n".join(buffer))
-/
def chunkAux (tokLen : List Char → Nat) (maxT : Int) :
    List (List Char) → List (List Char) → Nat → List (List (List Char))
  | [], buf, _ => if buf.isEmpty then [] else [buf]
  | p :: ps, buf, tally =>
    if ((tally : Int) + tokLen p > maxT) ∧ ¬ buf.isEmpty then
      buf :: chunkAux tokLen maxT ps [p] (tokLen p)
    else chunkAux tokLen maxT ps (buf ++ [p]) (tally + tokLen p)

def make_chunks (tokLen : List Char → Nat) (maxT : Int) (text : String) :
    List String :=
  (chunkAux tokLen maxT (splitParas text.data) [] 0).map
    (fun g => String.mk (List.intercalate newline2 g))

/-- Python `sep.join(parts)`. -/
def pyJoin (sep : String) (parts : List String) : String :=
  String.mk (List.intercalate sep.data (parts.map String.data))

/- ────────────────────────────────────────────────────────────────────
   `flashcards/ai/ingest.py` — `extract_text` (lines 13-35), and its
   caller `flashcards/builder_views.py::generate_deck` (lines 18-20).

   `Path(path).suffix` is modelled after pathlib: the last component's
   substring from its final dot, empty when the dot is the first or
   absent or the final character.  The PDF/DOCX/TXT readers and the card
   generator are external collaborators, passed as parameters.
   ──────────────────────────────────────────────────────────────────── -/

def lastComp (l : List Char) : List Char :=
  (l.reverse.takeWhile (fun c => c != '/')).reverse

def lastDotIdx (l : List Char) : Option Nat :=
  ((l.enum.filter (fun p => p.2 == '.')).map Prod.fst).getLast?

def pySuffix (path : String) : String :=
  let name := lastComp path.data
  match lastDotIdx name with
  | none => ""
  | some i => if 0 < i ∧ i < name.length - 1 then String.mk (name.drop i) else ""

def strLower (s : String) : String := String.mk (s.data.map Char.toLower)

def extract_text (readPdf readDocx readTxt : String → String) (path : String) :
    Except String String :=
  let suffix := strLower (pySuffix path)
  if suffix = ".pdf" then Except.ok (readPdf path)
  else if suffix = ".docx" ∨ suffix = ".doc" then Except.ok (readDocx path)
  else if suffix = ".txt" then Except.ok (readTxt path)
  else Except.error ("Unsupported file type: " ++ suffix)

/-- `builder_views.generate_deck` up to card generation:
`raw = ingest.extract_text(...)`, `chunks = chunker.make_chunks(raw, 700)`,
`cards = flashcard_gen._cards_from_chunk("\n\n".join(chunks), 10)`.
An uncaught `ValueError` from `extract_text` aborts the request with no
cards; this is the `Except.error` branch. -/
def builder_generate_deck (readPdf readDocx readTxt : String → String)
    (tokLen : List Char → Nat) (genCards : String → List PyCard)
    (path : String) : Except String (List PyCard) :=
  match extract_text readPdf readDocx readTxt path with
  | Except.error e => Except.error e
  | Except.ok raw =>
    Except.ok (genCards (pyJoin "\n\n" (make_chunks tokLen 700 raw)))


/-- Two one-bullet sections with explicit page metadata (used to test the
ordinal claim). -/
def secA : TSection :=
  { title := "A", bullets := [⟨"q1", "a1"⟩], page_start := some 1, page_end := some 1 }

def secB : TSection :=
  { title := "B", bullets := [⟨"q2", "a2"⟩], page_start := some 2, page_end := some 2 }

-- DEFS-END

/- ════════════════════════ theorems ════════════════════════ -/

theorem sum_range_ite (n base extra : Nat) :
    ((List.range n).map (fun i => base + if i < extra then 1 else 0)).sum
      = n * base + min extra n := by
  induction n with
  | zero => simp
  | succ n ih =>
    rw [List.range_succ, List.map_append, List.sum_append]
    simp only [List.map_cons, List.map_nil, List.sum_cons, List.sum_nil, ih]
    rw [Nat.succ_mul]
    by_cases h : n < extra
    · have h1 : min extra n = n := Nat.min_eq_right h.le
      have h2 : min extra (n + 1) = n + 1 := Nat.min_eq_right h
      simp only [h, if_true, h1, h2]
      omega
    · have h1 : min extra n = extra := Nat.min_eq_left (by omega)
      have h2 : min extra (n + 1) = extra := Nat.min_eq_left (by omega)
      simp only [h, if_false, h1, h2]
      omega

theorem sum_set_getD (l : List Nat) (j a : Nat) (h : j < l.length) :
    (l.set j a).sum + l.getD j 0 = l.sum + a := by
  induction l generalizing j with
  | nil => simp at h
  | cons x xs ih =>
    cases j with
    | zero => simp [List.set]; omega
    | succ j =>
      simp only [List.set, List.sum_cons, List.getD_cons_succ]
      have := ih j (by simpa using Nat.lt_of_succ_lt_succ h)
      omega

theorem exists_pos_getD (l : List Nat) (h : 0 < l.sum) :
    ∃ m, m < l.length ∧ 0 < l.getD m 0 := by
  induction l with
  | nil => simp at h
  | cons x xs ih =>
    by_cases hx : 0 < x
    · exact ⟨0, by simp, by simpa⟩
    · have hs : 0 < xs.sum := by simp only [List.sum_cons] at h; omega
      obtain ⟨m, hm, hpos⟩ := ih hs
      refine ⟨m + 1, by simpa using Nat.succ_lt_succ hm, ?_⟩
      rw [List.getD_cons_succ]
      exact hpos

theorem exists_cycle_hit (n m i : Nat) (hm : m < n) :
    ∃ k, k < n ∧ (i + k) % n = m := by
  have hn : 0 < n := lt_of_le_of_lt (Nat.zero_le m) hm
  have hi : i % n < n := Nat.mod_lt _ hn
  by_cases h : i % n ≤ m
  · refine ⟨m - i % n, by omega, ?_⟩
    rw [Nat.add_mod]
    rw [Nat.mod_eq_of_lt (show m - i % n < n by omega)]
    rw [show i % n + (m - i % n) = m by omega]
    exact Nat.mod_eq_of_lt hm
  · refine ⟨n - i % n + m, by omega, ?_⟩
    rw [Nat.add_mod]
    rw [Nat.mod_eq_of_lt (show n - i % n + m < n by omega)]
    rw [show i % n + (n - i % n + m) = n + m by omega, Nat.add_mod_left]
    exact Nat.mod_eq_of_lt hm

theorem normLoop_delta_zero (fuel : Nat) (prelim : List Nat) (i : Nat) :
    normLoop fuel prelim 0 i = prelim := by
  cases fuel <;> simp [normLoop]

theorem normLoop_sum (target d : Nat) :
    ∀ (fuel : Nat) (prelim : List Nat) (i : Nat) (delta : Int),
      delta.natAbs = d →
      (prelim.sum : Int) + delta = (target : Int) →
      prelim ≠ [] →
      prelim.length * d ≤ fuel →
      (normLoop fuel prelim delta i).sum = target := by
  induction d with
  | zero =>
    intro fuel prelim i delta habs hinv _ _
    have h0 : delta = 0 := Int.natAbs_eq_zero.mp habs
    subst h0
    rw [normLoop_delta_zero]
    omega
  | succ d' IH =>
    intro fuel prelim i delta habs hinv hne hfuel
    have hlen : 0 < prelim.length := List.length_pos.mpr hne
    have hmul : prelim.length * (d' + 1) = prelim.length * d' + prelim.length := by
      ring
    have hemp : prelim.isEmpty = false := by
      cases prelim with
      | nil => exact absurd rfl hne
      | cons a l => rfl
    have hdne : delta ≠ 0 := by omega
    -- a productive step: the invariant is transported and `natAbs` drops by one
    by_cases hpos : 0 < delta
    · -- increment branch, always productive
      obtain ⟨f, rfl⟩ : ∃ f, fuel = f + 1 := ⟨fuel - 1, by omega⟩
      simp only [normLoop, hdne, hemp, hpos, if_true, or_self, if_false,
        Bool.false_eq_true, or_false]
      set j := i % prelim.length with hj
      have hjlt : j < prelim.length := Nat.mod_lt _ hlen
      have hsum := sum_set_getD prelim j (prelim.getD j 0 + 1) hjlt
      have hlset : (prelim.set j (prelim.getD j 0 + 1)).length = prelim.length :=
        List.length_set ..
      apply IH f _ (i + 1) (delta - 1) (by omega) (by omega) ?_
        (by rw [List.length_set]; omega)
      intro hnil
      rw [hnil] at hlset
      simp at hlset
      omega
    · -- decrement branch: the sum is positive, so within one cycle of the
      -- index some positive entry is hit and decremented
      have hneg : delta < 0 := by omega
      have hsumpos : 0 < prelim.sum := by omega
      obtain ⟨m, hm, hmpos⟩ := exists_pos_getD prelim hsumpos
      obtain ⟨k, hk, hkm⟩ := exists_cycle_hit prelim.length m i hm
      -- inner induction on the distance `k` to the positive entry
      have inner : ∀ (k : Nat), ∀ (fuel i : Nat),
          0 < prelim.getD ((i + k) % prelim.length) 0 →
          (k + 1) + prelim.length * d' ≤ fuel →
          (normLoop fuel prelim delta i).sum = target := by
        intro k
        induction k with
        | zero =>
          intro fuel i hhit hf
          obtain ⟨f, rfl⟩ : ∃ f, fuel = f + 1 := ⟨fuel - 1, by omega⟩
          have hhit' : 0 < prelim.getD (i % prelim.length) 0 := by
            rw [Nat.add_zero] at hhit
            exact hhit
          simp only [normLoop, hdne, hemp, hpos, if_false, or_self,
            Bool.false_eq_true, or_false, hhit', if_true]
          set j := i % prelim.length with hj
          have hjlt : j < prelim.length := Nat.mod_lt _ hlen
          have hsum := sum_set_getD prelim j (prelim.getD j 0 - 1) hjlt
          have hlset : (prelim.set j (prelim.getD j 0 - 1)).length = prelim.length :=
            List.length_set ..
          apply IH f _ (i + 1) (delta + 1) (by omega) (by omega) ?_
            (by rw [List.length_set]; omega)
          intro hnil
          rw [hnil] at hlset
          simp at hlset
          omega
        | succ k ihk =>
          intro fuel i hhit hf
          obtain ⟨f, rfl⟩ : ∃ f, fuel = f + 1 := ⟨fuel - 1, by omega⟩
          by_cases hcur : 0 < prelim.getD (i % prelim.length) 0
          · -- positive entry already at the current index: productive now
            simp only [normLoop, hdne, hemp, hpos, if_false, or_self,
              Bool.false_eq_true, or_false, hcur, if_true]
            set j := i % prelim.length with hj
            have hjlt : j < prelim.length := Nat.mod_lt _ hlen
            have hsum := sum_set_getD prelim j (prelim.getD j 0 - 1) hjlt
            have hlset : (prelim.set j (prelim.getD j 0 - 1)).length = prelim.length :=
              List.length_set ..
            apply IH f _ (i + 1) (delta + 1) (by omega) (by omega) ?_
              (by rw [List.length_set]; omega)
            intro hnil
            rw [hnil] at hlset
            simp at hlset
            omega
          · -- skip step: index advances, target entry one step closer
            simp only [normLoop, hdne, hemp, hpos, if_false, or_self,
              Bool.false_eq_true, or_false, hcur]
            apply ihk f (i + 1) ?_ (by omega)
            have heq : i + 1 + k = i + (k + 1) := by omega
            rw [heq]
            exact hhit
      exact inner k fuel i (by rwa [hkm]) (by omega)

/-- C1, part for `_distribute_quota`: the returned quotas sum to `total`
whenever `parts > 0`, and the empty part list yields an empty quota list. -/
theorem distribute_quota_correct (total parts : Nat) :
    (0 < parts → (distribute_quota total parts).sum = total)
      ∧ (parts = 0 → distribute_quota total parts = []) := by
  constructor
  · intro hpos
    have hne : parts ≠ 0 := Nat.pos_iff_ne_zero.mp hpos
    unfold distribute_quota
    simp only [hne, if_false]
    rw [sum_range_ite]
    have hmod : total % parts < parts := Nat.mod_lt _ hpos
    have : min (total % parts) parts = total % parts := Nat.min_eq_left hmod.le
    rw [this]
    have := Nat.div_add_mod total parts
    omega
  · intro h
    unfold distribute_quota
    simp [h]

/-- C1 — Quota conservation: for every `total_cards ≥ 0` and non-empty part
list, `_distribute_quota` returns quotas summing exactly to `total_cards`,
and an empty part list yields an empty quota list; likewise the
normalization pass of `analyze_document`'s per-section allocation drives any
preliminary allocation to sum exactly to the recommended total. -/
theorem quota_conservation (total parts : Nat) (prelim : List Nat)
    (target i fuel : Nat) (hne : prelim ≠ [])
    (hfuel : prelim.length * ((target : Int) - (prelim.sum : Int)).natAbs ≤ fuel) :
    ((0 < parts → (distribute_quota total parts).sum = total)
      ∧ (parts = 0 → distribute_quota total parts = []))
    ∧ (normLoop fuel prelim ((target : Int) - (prelim.sum : Int)) i).sum = target :=
  ⟨distribute_quota_correct total parts,
   normLoop_sum target (((target : Int) - (prelim.sum : Int)).natAbs) fuel prelim i
     _ rfl (by omega) hne hfuel⟩

/-- Witness for C1 at a concrete input: 7 cards over 3 chunks, and the
normalization loop on preliminary allocation `[1, 3]` with target 6. -/
theorem quota_conservation_witness :
    (distribute_quota 7 3).sum = 7
      ∧ (normLoop 12 [1, 3] ((6 : Int) - (([1, 3] : List Nat).sum : Int)) 0).sum = 6 :=
  ⟨(quota_conservation 7 3 [1, 3] 6 0 12 (by decide) (by decide)).1.1 (by decide),
   (quota_conservation 7 3 [1, 3] 6 0 12 (by decide) (by decide)).2⟩

/- ─────────────── C3: fingerprint stability lemmas ─────────────── -/

theorem hexDigit_mem_hexAlphabet (n : Nat) : hexDigit (n % 16) ∈ hexAlphabet := by
  have h : n % 16 < 16 := Nat.mod_lt _ (by omega)
  have hall : ∀ m, m < 16 → hexDigit m ∈ hexAlphabet := by decide
  exact hall _ h

theorem word8Hex_hex (w : Nat) : ∀ c ∈ word8Hex w, c ∈ hexAlphabet := by
  intro c hc
  simp only [word8Hex, List.mem_cons, List.not_mem_nil, or_false] at hc
  rcases hc with h | h | h | h | h | h | h | h <;>
    (subst h; exact hexDigit_mem_hexAlphabet _)

theorem sha1HexChars_length (msg : List Nat) : (sha1HexChars msg).length = 40 := by
  simp [sha1HexChars, word8Hex]

theorem sha1HexChars_hex (msg : List Nat) :
    ∀ c ∈ sha1HexChars msg, c ∈ hexAlphabet := by
  intro c hc
  unfold sha1HexChars at hc
  simp only [List.mem_append] at hc
  rcases hc with (((h | h) | h) | h) | h <;> exact word8Hex_hex _ c h

/-- C3 — Fingerprint stability: `build_card_key` is a pure deterministic
function of the normalized `(front, back)` pair; it returns a string of 40
hexadecimal characters, and any two pairs with the same normalized word
content — i.e. equal up to letter case, leading/trailing/extra whitespace
and punctuation — receive the same key. -/
theorem card_key_stability (f b f' b' : String)
    (h : normWords f b = normWords f' b') :
    ((build_card_key f b).length = 40
      ∧ ∀ c ∈ (build_card_key f b).data, c ∈ hexAlphabet)
    ∧ build_card_key f b = build_card_key f' b' := by
  refine ⟨⟨?_, ?_⟩, ?_⟩
  · show ((sha1HexChars _).take 40).length = 40
    rw [List.length_take, sha1HexChars_length, Nat.min_self]
  · intro c hc
    have hc' : c ∈ (sha1HexChars (utf8Encode
        (List.intercalate [' '] (normWords f b)))).take 40 := hc
    exact sha1HexChars_hex _ c (List.mem_of_mem_take hc')
  · unfold build_card_key
    rw [h]

/-- Witness for C3: the claim's concrete instance,
`card_key("What is X?", "Y") = card_key("  what is x?  ", "y")`. -/
theorem card_key_stability_witness :
    build_card_key "What is X?" "Y" = build_card_key "  what is x?  " "y" :=
  (card_key_stability "What is X?" "Y" "  what is x?  " "y" (by decide)).2

/- ─────────────── C2 / C6: dedupe and emptiness filter ─────────────── -/

theorem build_card_key_ne_empty (f b : String) : build_card_key f b ≠ "" := by
  intro h
  have h40 : (build_card_key f b).length = 40 := by
    show ((sha1HexChars _).take 40).length = 40
    rw [List.length_take, sha1HexChars_length, Nat.min_self]
  rw [h] at h40
  simp at h40

theorem objKey_ne_empty (c : PyCard) : objKey c ≠ "" := by
  unfold objKey
  cases hck : c.card_key with
  | none => exact build_card_key_ne_empty _ _
  | some k =>
    by_cases hk : k = ""
    · simp only [hk, if_true, if_pos rfl]
      exact build_card_key_ne_empty _ _
    · simp only [if_neg hk]
      exact hk

theorem buildObjs_eq_keepFirst (cards : List PyCard) :
    ∀ seen, buildObjs cards seen
      = (keepFirstByKey seen (cards.filter validCard)).map mkDb := by
  induction cards with
  | nil => intro seen; rfl
  | cons c cs ih =>
    intro seen
    by_cases hv : validCard c = true
    · have h1 : ¬ (objFront c = "" ∨ objBack c = "") := by
        simp only [validCard, Bool.and_eq_true, Bool.not_eq_true',
          decide_eq_false_iff_not] at hv
        tauto
      rw [List.filter_cons_of_pos hv]
      by_cases hk : objKey c ∈ seen
      · have h2 : objKey c = "" ∨ objKey c ∈ seen := Or.inr hk
        simp only [buildObjs, if_neg h1, if_pos h2, keepFirstByKey, if_pos hk]
        exact ih seen
      · have h2 : ¬ (objKey c = "" ∨ objKey c ∈ seen) := by
          rcases objKey_ne_empty c with h
          tauto
        simp only [buildObjs, if_neg h1, if_neg h2, keepFirstByKey, if_neg hk,
          List.map_cons]
        exact congrArg _ (ih _)
    · have h1 : objFront c = "" ∨ objBack c = "" := by
        simp only [validCard, Bool.and_eq_true, Bool.not_eq_true',
          decide_eq_false_iff_not] at hv
        tauto
      rw [List.filter_cons_of_neg (by simpa using hv)]
      simp only [buildObjs, if_pos h1]
      exact ih seen

theorem buildObjs_keys_nodup (cards : List PyCard) :
    ∀ seen, ((buildObjs cards seen).map DbCard.card_key).Nodup
      ∧ ∀ k ∈ (buildObjs cards seen).map DbCard.card_key, k ∉ seen := by
  induction cards with
  | nil => intro seen; exact ⟨List.nodup_nil, by simp [buildObjs]⟩
  | cons c cs ih =>
    intro seen
    by_cases h1 : objFront c = "" ∨ objBack c = ""
    · simp only [buildObjs, if_pos h1]
      exact ih seen
    · by_cases h2 : objKey c = "" ∨ objKey c ∈ seen
      · simp only [buildObjs, if_neg h1, if_pos h2]
        exact ih seen
      · simp only [buildObjs, if_neg h1, if_neg h2, List.map_cons]
        obtain ⟨hnd, hnotin⟩ := ih (objKey c :: seen)
        have hkeq : (mkDb c).card_key = objKey c := rfl
        constructor
        · rw [List.nodup_cons]
          refine ⟨?_, hnd⟩
          intro hmem
          rw [hkeq] at hmem
          exact hnotin _ hmem (List.mem_cons_self _ _)
        · intro k hk
          rcases List.mem_cons.mp hk with hkk | hkk
          · rw [hkk, hkeq]
            tauto
          · intro hks
            exact hnotin k hkk (List.mem_cons_of_mem _ hks)

/-- C2 (amended) — Dedupe uniqueness with first-occurrence-wins among valid
candidates: every card kept by the persistence loop of `generate_deck` has
a `card_key` distinct from all other kept cards, and the loop keeps exactly
the first occurrence of each key among the candidates with non-empty
stripped `front` and `back` (a candidate failing the emptiness check is
dropped without reserving its key, so a later valid candidate with the
same key is the one kept). -/
theorem dedupe_first_wins (cards : List PyCard) :
    ((buildObjs cards []).map DbCard.card_key).Nodup
    ∧ buildObjs cards [] = (keepFirstByKey [] (cards.filter validCard)).map mkDb :=
  ⟨(buildObjs_keys_nodup cards []).1, buildObjs_eq_keepFirst cards []⟩

/-- C2 counterexample: two candidates carry the same `card_key` `"K"`; the
earlier one has an empty `front`, so it is dropped by the emptiness check
and the LATER candidate is the one kept — contradicting the claim that
whenever two candidates share a key the earliest in processing order is
kept and all later ones are dropped. -/
theorem dedupe_first_wins_counterexample :
    cardEmptyFrontK.card_key = cardValidK.card_key
    ∧ buildObjs [cardEmptyFrontK, cardValidK] [] = [mkDb cardValidK]
    ∧ (mkDb cardValidK).front = "x" :=
  ⟨rfl, by decide, rfl⟩

/-- C6 — Empty-card rejection: a candidate whose stripped `front` or `back`
is empty (in particular a missing field) contributes nothing to the
persisted rows, and consequently every persisted card has a non-empty
front and a non-empty back. -/
theorem empty_card_rejection (cards : List PyCard) (seen : List String) :
    (∀ o ∈ buildObjs cards seen, o.front ≠ "" ∧ o.back ≠ "")
    ∧ ∀ c, (objFront c = "" ∨ objBack c = "") →
        buildObjs (c :: cards) seen = buildObjs cards seen := by
  constructor
  · induction cards generalizing seen with
    | nil => simp [buildObjs]
    | cons c cs ih =>
      intro o ho
      by_cases h1 : objFront c = "" ∨ objBack c = ""
      · rw [show buildObjs (c :: cs) seen = buildObjs cs seen from by
          simp only [buildObjs, if_pos h1]] at ho
        exact ih seen o ho
      · by_cases h2 : objKey c = "" ∨ objKey c ∈ seen
        · rw [show buildObjs (c :: cs) seen = buildObjs cs seen from by
            simp only [buildObjs, if_neg h1, if_pos h2]] at ho
          exact ih seen o ho
        · rw [show buildObjs (c :: cs) seen
              = mkDb c :: buildObjs cs (objKey c :: seen) from by
            simp only [buildObjs, if_neg h1, if_neg h2]] at ho
          rcases List.mem_cons.mp ho with rfl | ho'
          · push_neg at h1
            exact ⟨h1.1, h1.2⟩
          · exact ih _ o ho'
  · intro c hc
    simp only [buildObjs, if_pos hc]

/-- Witness for C6: a candidate whose front strips to empty is dropped. -/
theorem empty_card_rejection_witness :
    buildObjs [cardBlankFront] [] = [] :=
  ((empty_card_rejection [] []).2 _ (Or.inl (by decide))).trans rfl

/- ─────────────── C4: TOC section partition ─────────────── -/

theorem clip_span (pages : Nat) :
    ∀ (l : List (String × Nat)) (s0 : Nat),
      ((l.map Prod.snd).Chain' (· < ·)) →
      (∀ e ∈ l, 1 ≤ e.2 ∧ e.2 ≤ pages) →
      l.head?.map Prod.snd = some s0 →
      sectionsPageSpan (clipSections pages l) = List.range' s0 (pages + 1 - s0) := by
  intro l
  induction l with
  | nil => intro s0 _ _ hh; simp at hh
  | cons x rest ih =>
    intro s0 hchain hbound hhead
    have hx : x.2 = s0 := by simpa using hhead
    cases rest with
    | nil =>
      have hxb := hbound x (List.mem_cons_self _ _)
      simp only [clipSections, sectionsPageSpan, List.map_cons, List.map_nil,
        List.flatten_cons, List.flatten_nil, List.append_nil, secPages]
      rw [← hx]
      congr 1
      omega
    | cons y rest' =>
      have hxy : x.2 < y.2 := by
        simp only [List.map_cons, List.chain'_cons] at hchain
        exact hchain.1
      have hchain' : (((y :: rest').map Prod.snd).Chain' (· < ·)) := by
        simp only [List.map_cons, List.chain'_cons] at hchain ⊢
        rcases rest' with _ | ⟨z, r⟩
        · simp
        · simp only [List.map_cons] at hchain ⊢
          exact hchain.2
      have hyb := hbound y (List.mem_cons_of_mem _ (List.mem_cons_self _ _))
      have hxb := hbound x (List.mem_cons_self _ _)
      have hIH := ih y.2 hchain' (fun e he => hbound e (List.mem_cons_of_mem _ he))
        (by simp)
      have hmax2 : max x.2 (y.2 - 1) = y.2 - 1 := Nat.max_eq_right (by omega)
      show secPages (x.1, x.2, max x.2 (y.2 - 1))
          ++ sectionsPageSpan (clipSections pages (y :: rest'))
        = List.range' s0 (pages + 1 - s0)
      rw [hIH, hmax2]
      show List.range' x.2 (y.2 - 1 + 1 - x.2) ++ List.range' y.2 (pages + 1 - y.2)
        = List.range' s0 (pages + 1 - s0)
      have hr := List.range'_append x.2 (y.2 - x.2) (pages + 1 - y.2) 1
      rw [show y.2 - 1 + 1 - x.2 = y.2 - x.2 by omega, ← hx,
        show pages + 1 - x.2 = pages + 1 - y.2 + (y.2 - x.2) by omega]
      rw [show x.2 + 1 * (y.2 - x.2) = y.2 by omega] at hr
      exact hr

theorem mem_sortedFlat_bounds (pages : Nat) (toc : List (String × Int)) :
    ∀ e ∈ sortedFlat pages toc, 1 ≤ e.2 ∧ e.2 ≤ pages := by
  intro e he
  unfold sortedFlat at he
  have he' := (List.perm_insertionSort _ _).mem_iff.mp he
  obtain ⟨a, ha, rfl⟩ := List.mem_map.mp he'
  have hcond := (List.mem_filter.mp ha).2
  simp only [Bool.and_eq_true, decide_eq_true_eq] at hcond
  constructor <;> omega

/-- C4 (amended) — Section partition: for a structural outline whose
filtered, sorted entries have pairwise-distinct start pages and whose
first entry starts at page 1, the produced section ranges are contiguous
and non-overlapping and their concatenation is exactly the page interval
`[1, pages]`.  (Without those hypotheses the code neither covers `[1, P]`
— an outline starting after page 1 leaves the leading pages uncovered —
nor keeps ranges disjoint: duplicate start pages overlap after the
`end = max(start, end)` clip.) -/
theorem toc_sections_partition (pages : Nat) (toc : List (String × Int))
    (hhead : (sortedFlat pages toc).head?.map Prod.snd = some 1)
    (hchain : ((sortedFlat pages toc).map Prod.snd).Chain' (· < ·)) :
    sectionsPageSpan (tocSections pages toc) = List.range' 1 pages := by
  have hb := mem_sortedFlat_bounds pages toc
  have h := clip_span pages (sortedFlat pages toc) 1 hchain hb hhead
  unfold tocSections
  rw [h]
  congr 1

/-- C4 counterexample: the outline `[("A", 2), ("B", 2)]` over a 2-page
document produces the overlapping sections `(2,2), (2,2)`; page 1 is
covered by no section, so the ranges neither partition nor cover `[1, 2]`. -/
theorem toc_sections_partition_counterexample :
    tocSections 2 [("A", (2 : Int)), ("B", (2 : Int))]
      = [("A", 2, 2), ("B", 2, 2)]
    ∧ sectionsPageSpan (tocSections 2 [("A", (2 : Int)), ("B", (2 : Int))])
      ≠ List.range' 1 2 := by
  constructor
  · decide
  · decide

/-- Witness for C4 at a concrete outline (given unsorted, starting at
page 1, distinct start pages): the section pages partition `[1, 5]`. -/
theorem toc_sections_partition_witness :
    sectionsPageSpan (tocSections 5 [("Ch2", (3 : Int)), ("Intro", (1 : Int))])
      = List.range' 1 5 := by
  have hs : sortedFlat 5 [("Ch2", (3 : Int)), ("Intro", (1 : Int))]
      = [("Intro", 1), ("Ch2", 3)] := by decide
  apply toc_sections_partition
  · rw [hs]
    rfl
  · rw [hs]
    simp [List.chain'_cons]

/- ─────────────── C5: ordinal assignment ─────────────── -/

theorem enumFrom_map_add (ord : Nat) (bs : List Bullet) :
    ∀ n, ((List.enumFrom n bs).map (fun kb => ord + kb.1))
      = List.range' (ord + n) bs.length := by
  induction bs with
  | nil => intro n; rfl
  | cons b bs ih =>
    intro n
    show (ord + n) :: (List.enumFrom (n + 1) bs).map (fun kb => ord + kb.1)
      = List.range' (ord + n) (bs.length + 1)
    rw [List.range'_succ, ih (n + 1)]
    rfl

theorem items_map_ordinal (ord : Nat) (bs : List Bullet) (pg : Int) :
    ((bs.enum.map (fun kb =>
        ({ itemType := "concept", term := kb.2.q, definition := kb.2.a,
           source_excerpt := kb.2.q ++ ": " ++ kb.2.a,
           page := pg, ordinal := ord + kb.1 } : TItem))).map TItem.ordinal)
      = List.range' ord bs.length := by
  rw [List.map_map]
  show (List.enumFrom 0 bs).map (fun kb => ord + kb.1) = List.range' ord bs.length
  rw [enumFrom_map_add, Nat.add_zero]

theorem buildOut_ordinals (l : List (TSection × (Nat × Nat))) :
    ∀ ord,
      ((((buildOut ord l).1.map (fun s => s.items.map TItem.ordinal)).flatten
        = List.range' ord ((l.map (fun p => p.1.bullets.length)).sum))
      ∧ ((buildOut ord l).1.map (fun s => s.items.length)
        = l.map (fun p => p.1.bullets.length))) := by
  induction l with
  | nil => intro ord; exact ⟨rfl, rfl⟩
  | cons sd rest ih =>
    intro ord
    obtain ⟨sec, df⟩ := sd
    constructor
    · show (sec.bullets.enum.map _).map TItem.ordinal
          ++ ((buildOut (ord + sec.bullets.length) rest).1.map
              (fun s => s.items.map TItem.ordinal)).flatten
        = List.range' ord (sec.bullets.length
            + (rest.map (fun p => p.1.bullets.length)).sum)
      rw [items_map_ordinal, (ih (ord + sec.bullets.length)).1]
      have hr := List.range'_append ord sec.bullets.length
        ((rest.map (fun p => p.1.bullets.length)).sum) 1
      rw [show ord + 1 * sec.bullets.length = ord + sec.bullets.length by omega]
        at hr
      rw [hr]
      congr 1
      omega
    · show (sec.bullets.enum.map _).length
          :: (buildOut (ord + sec.bullets.length) rest).1.map
              (fun s => s.items.length)
        = sec.bullets.length :: rest.map (fun p => p.1.bullets.length)
      rw [(ih (ord + sec.bullets.length)).2, List.length_map, List.enum_length]

theorem setLastEnd_length (P : Nat) :
    ∀ l : List (Nat × Nat), (setLastEnd P l).length = l.length
  | [] => rfl
  | [_] => rfl
  | _ :: y :: rest => by
    show (setLastEnd P (y :: rest)).length + 1 = rest.length + 1 + 1
    rw [setLastEnd_length P (y :: rest)]
    rfl

theorem even_ranges_length (n tp : Nat) :
    (even_ranges n tp).length = max 1 n := by
  have hbl : (evenRangesBase (max 1 n) (max 1 tp)).length = max 1 n := by
    simp [evenRangesBase]
  unfold even_ranges
  dsimp only
  split
  · next h =>
    rw [h] at hbl
    simp only [List.length_nil] at hbl
    simp only [List.length_nil]
    omega
  · next x rest h =>
    rw [h] at hbl
    simp only [List.length_cons] at hbl
    rw [setLastEnd_length]
    simp only [List.length_cons]
    omega

/-- C5 (amended) — Ordinal assignment: the templater assigns ordinals
from a single global counter starting at 1 that increments once per
emitted item, so the ordinals of the assembled output, read in emission
order, are exactly `1, 2, …, N` (hence strictly increasing), grouped by
section in input section order with within-section generation order
preserved (each output section carries exactly its own bullets, in
order). -/
theorem template_ordinals (secs : List TSection) (pages : Nat) (title : String) :
    (((template_from_sections secs pages title).sections.map
        (fun s => s.items.map TItem.ordinal)).flatten
      = List.range' 1 ((secs.map (fun s => s.bullets.length)).sum))
    ∧ ((template_from_sections secs pages title).sections.map
        (fun s => s.items.length))
      = secs.map (fun s => s.bullets.length)
    ∧ (((template_from_sections secs pages title).sections.map
        (fun s => s.items.map TItem.ordinal)).flatten).Pairwise (· < ·) := by
  have hlen : secs.length ≤ (even_ranges secs.length pages).length := by
    rw [even_ranges_length]
    omega
  have hz : (secs.zip (even_ranges secs.length pages)).map
      (fun p => p.1.bullets.length) = secs.map (fun s => s.bullets.length) := by
    have h1 : (secs.zip (even_ranges secs.length pages)).map
        (fun p => p.1.bullets.length)
      = ((secs.zip (even_ranges secs.length pages)).map Prod.fst).map
          (fun s => s.bullets.length) := by
      rw [List.map_map]
      rfl
    rw [h1, List.map_fst_zip _ _ hlen]
  have h := buildOut_ordinals (secs.zip (even_ranges secs.length pages)) 1
  have h1 : ((template_from_sections secs pages title).sections.map
        (fun s => s.items.map TItem.ordinal)).flatten
      = List.range' 1 ((secs.map (fun s => s.bullets.length)).sum) := by
    show ((buildOut 1 (secs.zip (even_ranges secs.length pages))).1.map
        (fun s => s.items.map TItem.ordinal)).flatten = _
    rw [h.1, hz]
  refine ⟨h1, ?_, ?_⟩
  · show (buildOut 1 (secs.zip (even_ranges secs.length pages))).1.map
        (fun s => s.items.length) = _
    rw [h.2, hz]
  · rw [h1]
    exact List.pairwise_lt_range' 1 _ 1 (by omega)

/-- C5 counterexample: with two one-bullet sections the code's ordinals
are `[1], [2]` — the second section's item has ordinal 2, while the
claimed formula `section_index * 10_000 + position_within_section` would
give it at least `1 * 10_000 = 10 000`. -/
theorem template_ordinals_counterexample :
    ((template_from_sections [secA, secB] 2 "t").sections.map
        (fun s => s.items.map TItem.ordinal)) = [[1], [2]]
    ∧ (2 : Nat) < 1 * 10000 + 0 := by
  constructor
  · decide
  · decide

/- ─────────────── C7: empty pages in the fallback extractor ─────────────── -/

theorem pageFallbackAux_cons (maxChars i : Nat) (t : String) (ts : List String) :
    pageFallbackAux maxChars i (t :: ts)
      = if pyStrip t = "" then pageFallbackAux maxChars (i + 1) ts
        else (trim_by_chars (pyStrip t) maxChars, i + 1)
          :: pageFallbackAux maxChars (i + 1) ts := by
  simp only [pageFallbackAux]

theorem pageFallbackAux_mem (maxChars : Nat) :
    ∀ (texts : List String) (i : Nat) (t' : String) (p : Nat),
      ((t', p) ∈ pageFallbackAux maxChars i texts
        ↔ ∃ j, j < texts.length ∧ p = i + j + 1
            ∧ pyStrip (texts.getD j "") ≠ ""
            ∧ t' = trim_by_chars (pyStrip (texts.getD j "")) maxChars) := by
  intro texts
  induction texts with
  | nil =>
    intro i t' p
    simp [pageFallbackAux]
  | cons t ts ih =>
    intro i t' p
    by_cases he : pyStrip t = ""
    · rw [pageFallbackAux_cons, if_pos he, ih (i + 1) t' p]
      constructor
      · rintro ⟨j, hj, hp, hne, ht⟩
        refine ⟨j + 1, ?_, by omega, ?_, ?_⟩
        · simpa using Nat.succ_lt_succ hj
        · rw [List.getD_cons_succ]
          exact hne
        · rw [List.getD_cons_succ]
          exact ht
      · rintro ⟨j, hj, hp, hne, ht⟩
        cases j with
        | zero =>
          rw [List.getD_cons_zero] at hne
          exact absurd he hne
        | succ j =>
          rw [List.getD_cons_succ] at hne ht
          refine ⟨j, ?_, by omega, hne, ht⟩
          simpa using Nat.lt_of_succ_lt_succ hj
    · rw [pageFallbackAux_cons, if_neg he, List.mem_cons, ih (i + 1) t' p]
      constructor
      · rintro (heq | ⟨j, hj, hp, hne, ht⟩)
        · refine ⟨0, by simp, ?_, ?_, ?_⟩
          · have := congrArg Prod.snd heq
            simpa using this
          · rw [List.getD_cons_zero]
            exact he
          · rw [List.getD_cons_zero]
            have := congrArg Prod.fst heq
            simpa using this
        · refine ⟨j + 1, ?_, by omega, ?_, ?_⟩
          · simpa using Nat.succ_lt_succ hj
          · rw [List.getD_cons_succ]
            exact hne
          · rw [List.getD_cons_succ]
            exact ht
      · rintro ⟨j, hj, hp, hne, ht⟩
        cases j with
        | zero =>
          left
          rw [List.getD_cons_zero] at ht
          rw [ht, show p = i + 1 by omega]
        | succ j =>
          rw [List.getD_cons_succ] at hne ht
          refine Or.inr ⟨j, ?_, by omega, hne, ht⟩
          simpa using Nat.lt_of_succ_lt_succ hj

theorem pageFallbackAux_pages_bound (maxChars : Nat) :
    ∀ (texts : List String) (i : Nat) (e : String × Nat),
      e ∈ pageFallbackAux maxChars i texts → i + 1 ≤ e.2 ∧ e.2 ≤ i + texts.length := by
  intro texts
  induction texts with
  | nil => intro i e he; simp [pageFallbackAux] at he
  | cons t ts ih =>
    intro i e he
    by_cases hcase : pyStrip t = ""
    · rw [pageFallbackAux_cons, if_pos hcase] at he
      have := ih (i + 1) e he
      simp only [List.length_cons]
      omega
    · rw [pageFallbackAux_cons, if_neg hcase] at he
      rcases List.mem_cons.mp he with rfl | he'
      · simp only [List.length_cons]
        omega
      · have := ih (i + 1) e he'
        simp only [List.length_cons]
        omega

theorem pageFallbackAux_chain (maxChars : Nat) :
    ∀ (texts : List String) (i : Nat),
      ((pageFallbackAux maxChars i texts).map Prod.snd).Chain' (· < ·) := by
  intro texts
  induction texts with
  | nil => intro i; simp [pageFallbackAux]
  | cons t ts ih =>
    intro i
    by_cases hcase : pyStrip t = ""
    · rw [pageFallbackAux_cons, if_pos hcase]
      exact ih (i + 1)
    · rw [pageFallbackAux_cons, if_neg hcase]
      rw [List.map_cons, List.chain'_cons']
      refine ⟨?_, ih (i + 1)⟩
      intro y hy
      have hmem : ∃ e ∈ pageFallbackAux maxChars (i + 1) ts, e.2 = y := by
        rcases hh : (pageFallbackAux maxChars (i + 1) ts) with _ | ⟨e, rest⟩
        · rw [hh] at hy
          simp at hy
        · rw [hh] at hy
          simp only [List.map_cons, List.head?_cons, Option.mem_def,
            Option.some.injEq] at hy
          exact ⟨e, List.mem_cons_self _ _, hy⟩
      obtain ⟨e, he, rfl⟩ := hmem
      have := pageFallbackAux_pages_bound maxChars ts (i + 1) e he
      omega

/-- C7 (amended) — Empty-page handling in the per-page fallback of
`run_extraction`: pages whose text strips to empty are OMITTED from the
output (not retained as empty entries); each emitted chunk carries the
original 1-based number of its page, the emitted page numbers are
strictly increasing, and an entry for page `p` exists exactly when page
`p` exists and has non-empty stripped text.  Page numbering of the
output is therefore faithful but not contiguous. -/
theorem page_fallback_characterization (maxChars : Nat) (texts : List String) :
    ((pageFallbackChunks maxChars texts).map Prod.snd).Chain' (· < ·)
    ∧ ∀ p, (∃ t, (t, p) ∈ pageFallbackChunks maxChars texts)
        ↔ (1 ≤ p ∧ p ≤ texts.length ∧ pyStrip (texts.getD (p - 1) "") ≠ "") := by
  constructor
  · exact pageFallbackAux_chain maxChars texts 0
  · intro p
    constructor
    · rintro ⟨t, ht⟩
      obtain ⟨j, hj, hp, hne, _⟩ :=
        (pageFallbackAux_mem maxChars texts 0 t p).mp ht
      refine ⟨by omega, by omega, ?_⟩
      rw [show p - 1 = j by omega]
      exact hne
    · rintro ⟨h1, h2, hne⟩
      refine ⟨trim_by_chars (pyStrip (texts.getD (p - 1) "")) maxChars, ?_⟩
      exact (pageFallbackAux_mem maxChars texts 0 _ p).mpr
        ⟨p - 1, by omega, by omega, hne, rfl⟩

/-- C7 counterexample: a 2-page document whose first page has no
extractable text yields a single chunk `[("x", 2)]` — there is no entry
for page 1, so the output does not contain an entry for every page and
the page numbering is not contiguous from 1. -/
theorem page_retention_counterexample :
    pageFallbackChunks 2000 ["", "x"] = [("x", 2)]
    ∧ (pageFallbackChunks 2000 ["", "x"]).length ≠ 2
    ∧ ¬ ∃ t, (t, 1) ∈ pageFallbackChunks 2000 ["", "x"] := by
  refine ⟨by decide, by decide, ?_⟩
  rintro ⟨t, ht⟩
  rw [show pageFallbackChunks 2000 ["", "x"] = [("x", 2)] from by decide] at ht
  simp at ht

/-- Witness for C7: a single non-empty page produces an entry for page 1. -/
theorem page_fallback_characterization_witness :
    ∃ t, (t, 1) ∈ pageFallbackChunks 2000 ["a"] :=
  ((page_fallback_characterization 2000 ["a"]).2 1).mpr (by decide)

/- ─────────────── C8: even-partition fallback ─────────────── -/

theorem cover_chain :
    ∀ (l : List (Nat × Nat)) (p : Nat),
      (∀ r ∈ l, r.1 ≤ r.2) →
      List.Chain' (fun a b => b.1 ≤ a.2 + 1) l →
      (∀ s ∈ l.head?, s.1 ≤ p) →
      (∃ r ∈ l, p ≤ r.2) →
      ∃ r ∈ l, r.1 ≤ p ∧ p ≤ r.2 := by
  intro l
  induction l with
  | nil => intro p _ _ _ hw; simp at hw
  | cons x rest ih =>
    intro p hval hchain hhead hw
    have hx1 : x.1 ≤ p := hhead x (by simp)
    by_cases hp : p ≤ x.2
    · exact ⟨x, by simp, hx1, hp⟩
    · have hw' : ∃ r ∈ rest, p ≤ r.2 := by
        obtain ⟨r, hr, hpr⟩ := hw
        rcases List.mem_cons.mp hr with rfl | hr'
        · omega
        · exact ⟨r, hr', hpr⟩
      cases rest with
      | nil =>
        obtain ⟨r, hr, _⟩ := hw'
        simp at hr
      | cons y rest' =>
        have hchain' := List.chain'_cons.mp hchain
        obtain ⟨r, hr, hr1, hr2⟩ := ih p
          (fun r hr => hval r (List.mem_cons_of_mem _ hr)) hchain'.2
          (by
            intro s hs
            simp only [List.head?_cons, Option.mem_def, Option.some.injEq] at hs
            subst hs
            have := hchain'.1
            omega)
          hw'
        exact ⟨r, List.mem_cons_of_mem _ hr, hr1, hr2⟩

theorem setLastEnd_eq_self (P : Nat) :
    ∀ l : List (Nat × Nat), (∀ x, l.getLast? = some x → x.2 = P) →
      setLastEnd P l = l
  | [], _ => rfl
  | [x], h => by
    have hx := h x rfl
    show [(x.1, P)] = [x]
    rw [← hx]
  | x :: y :: rest, h => by
    show x :: setLastEnd P (y :: rest) = x :: y :: rest
    rw [setLastEnd_eq_self P (y :: rest) (fun z hz => h z (by
      rw [List.getLast?_cons_cons]
      exact hz))]

/-- The per-index range function of `evenRangesBase`. -/
theorem evenRangesBase_eq_map (m P : Nat) :
    evenRangesBase m P = (List.range m).map (fun i =>
      (max 1 (min (i * P / m + 1) P),
       max (max 1 (min (i * P / m + 1) P)) (min ((i + 1) * P / m) P))) := rfl

theorem evenRangesBase_last (m' P : Nat) (hP : 0 < P) :
    ∀ x, (evenRangesBase (m' + 1) P).getLast? = some x → x.2 = P := by
  intro x hx
  rw [evenRangesBase_eq_map, List.getLast?_map] at hx
  have hr : (List.range (m' + 1)).getLast? = some m' := by
    rw [List.range_succ]
    exact List.getLast?_concat _
  rw [hr] at hx
  simp only [Option.map_some', Option.some.injEq] at hx
  have hmd : (m' + 1) * P / (m' + 1) = P :=
    Nat.mul_div_cancel_left P (Nat.succ_pos m')
  rw [← hx]
  simp only
  rw [hmd]
  omega

theorem even_ranges_eq_base (n tp : Nat) :
    even_ranges n tp = evenRangesBase (max 1 n) (max 1 tp) := by
  obtain ⟨m', hm'⟩ : ∃ m', max 1 n = m' + 1 := ⟨max 1 n - 1, by omega⟩
  have hP1 : 0 < max 1 tp := by omega
  unfold even_ranges
  dsimp only
  rw [hm']
  cases hb : evenRangesBase (m' + 1) (max 1 tp) with
  | nil => rfl
  | cons x rest =>
    have hd : (evenRangesBase (m' + 1) (max 1 tp)).head? = some x := by
      rw [hb]
      rfl
    rw [evenRangesBase_eq_map, List.head?_map, List.range_succ_eq_map] at hd
    simp only [List.head?_cons, Option.map_some', Option.some.injEq] at hd
    have hx1 : x.1 = 1 := by
      rw [← hd]
      have h0 : 0 * (max 1 tp) / (m' + 1) = 0 := by simp
      simp only [h0]
      omega
    have hxpair : (1, x.2) = x := by
      obtain ⟨a, b⟩ := x
      simp only at hx1 ⊢
      rw [hx1]
    show setLastEnd (max 1 tp) ((1, x.2) :: rest) = x :: rest
    rw [hxpair, ← hb]
    exact setLastEnd_eq_self _ _ (evenRangesBase_last m' (max 1 tp) hP1)

/-- C8 (amended) — Even-partition fallback: `_even_ranges(n, P)` returns
`max 1 n` ranges that each lie within `[1, max 1 P]` with `start ≤ end`,
consecutive ranges leave no gap (`next.start ≤ prev.end + 1`), and the
ranges jointly cover every page of `[1, max 1 P]`; moreover whenever
`P ≥ n` (so no clamping triggers) each range is exactly the claimed
`(⌊i·P/n⌋+1, ⌊(i+1)·P/n⌋)`.  For `P < n` the clamp `end = max(start,
min(end, P))` raises empty ranges to one page, so the exact floor formula
fails and ranges may repeat (overlap), though coverage still holds. -/
theorem even_partition_fallback (n totalPages : Nat) :
    (even_ranges n totalPages).length = max 1 n
    ∧ (∀ r ∈ even_ranges n totalPages,
        1 ≤ r.1 ∧ r.1 ≤ r.2 ∧ r.2 ≤ max 1 totalPages)
    ∧ List.Chain' (fun a b => b.1 ≤ a.2 + 1) (even_ranges n totalPages)
    ∧ (∀ p, 1 ≤ p → p ≤ max 1 totalPages →
        ∃ r ∈ even_ranges n totalPages, r.1 ≤ p ∧ p ≤ r.2)
    ∧ (max 1 n ≤ max 1 totalPages →
        even_ranges n totalPages
          = (List.range (max 1 n)).map
              (fun i => (i * (max 1 totalPages) / (max 1 n) + 1,
                (i + 1) * (max 1 totalPages) / (max 1 n)))) := by
  have heq := even_ranges_eq_base n totalPages
  have hm1 : 0 < max 1 n := by omega
  have hP1 : 0 < max 1 totalPages := by omega
  have hval : ∀ r ∈ even_ranges n totalPages,
      1 ≤ r.1 ∧ r.1 ≤ r.2 ∧ r.2 ≤ max 1 totalPages := by
    intro r hr
    rw [heq, evenRangesBase_eq_map] at hr
    obtain ⟨i, _, rfl⟩ := List.mem_map.mp hr
    refine ⟨?_, ?_, ?_⟩ <;> (simp only; omega)
  have hchain : List.Chain' (fun a b => b.1 ≤ a.2 + 1) (even_ranges n totalPages) := by
    rw [heq, evenRangesBase_eq_map, List.chain'_map]
    cases hm : max 1 n with
    | zero => simp
    | succ k =>
      rw [List.chain'_range_succ]
      intro i _
      simp only [Nat.succ_eq_add_one]
      omega
  have hcov : ∀ p, 1 ≤ p → p ≤ max 1 totalPages →
      ∃ r ∈ even_ranges n totalPages, r.1 ≤ p ∧ p ≤ r.2 := by
    intro p hp1 hpP
    obtain ⟨m', hm'⟩ : ∃ m', max 1 n = m' + 1 := ⟨max 1 n - 1, by omega⟩
    apply cover_chain (even_ranges n totalPages) p
      (fun r hr => (hval r hr).2.1) hchain
    · intro s hs
      rw [heq, evenRangesBase_eq_map, List.head?_map, hm',
        List.range_succ_eq_map] at hs
      simp only [List.head?_cons, Option.map_some', Option.mem_def,
        Option.some.injEq] at hs
      subst hs
      simp only
      have h0 : 0 * (max 1 totalPages) / (m' + 1) = 0 := by simp
      rw [h0]
      omega
    · rw [heq, evenRangesBase_eq_map, hm']
      refine ⟨_, List.mem_map.mpr ⟨m', List.mem_range.mpr (by omega), rfl⟩, ?_⟩
      simp only
      have hmd : (m' + 1) * (max 1 totalPages) / (m' + 1) = max 1 totalPages :=
        Nat.mul_div_cancel_left _ (Nat.succ_pos m')
      rw [hmd]
      omega
  have hformula : max 1 n ≤ max 1 totalPages →
      even_ranges n totalPages
        = (List.range (max 1 n)).map
            (fun i => (i * (max 1 totalPages) / (max 1 n) + 1,
              (i + 1) * (max 1 totalPages) / (max 1 n))) := by
    intro hle
    rw [heq, evenRangesBase_eq_map]
    apply List.map_congr_left
    intro i hi
    rw [List.mem_range] at hi
    have hstart_lt : i * (max 1 totalPages) / (max 1 n) < max 1 totalPages := by
      rw [Nat.div_lt_iff_lt_mul hm1, Nat.mul_comm (max 1 totalPages) (max 1 n)]
      exact Nat.mul_lt_mul_of_lt_of_le hi (Nat.le_refl _) hP1
    have hend_le : (i + 1) * (max 1 totalPages) / (max 1 n) ≤ max 1 totalPages := by
      have h1 : (i + 1) * (max 1 totalPages) ≤ (max 1 n) * (max 1 totalPages) :=
        Nat.mul_le_mul_right _ (by omega)
      have h2 := Nat.div_le_div_right (c := max 1 n) h1
      rwa [Nat.mul_div_cancel_left _ hm1] at h2
    have hdiv_ge : i * (max 1 totalPages) / (max 1 n) + 1
        ≤ (i + 1) * (max 1 totalPages) / (max 1 n) := by
      have hq : i * (max 1 totalPages) / (max 1 n) + (max 1 totalPages) / (max 1 n)
          ≤ (i * (max 1 totalPages) + (max 1 totalPages)) / (max 1 n) := by
        rw [Nat.le_div_iff_mul_le hm1, Nat.add_mul]
        exact Nat.add_le_add (Nat.div_mul_le_self _ _) (Nat.div_mul_le_self _ _)
      rw [show i * (max 1 totalPages) + (max 1 totalPages)
          = (i + 1) * (max 1 totalPages) from by ring] at hq
      have hPm : 1 ≤ (max 1 totalPages) / (max 1 n) := by
        rw [Nat.le_div_iff_mul_le hm1]
        omega
      omega
    have hmin1 : i * (max 1 totalPages) / (max 1 n) + 1 ≤ max 1 totalPages :=
      hstart_lt
    have h1le : (1 : Nat) ≤ i * (max 1 totalPages) / (max 1 n) + 1 :=
      Nat.succ_le_succ (Nat.zero_le _)
    have e1 : max 1 (min (i * (max 1 totalPages) / (max 1 n) + 1)
        (max 1 totalPages)) = i * (max 1 totalPages) / (max 1 n) + 1 := by
      rw [Nat.min_eq_left hmin1, Nat.max_eq_right h1le]
    rw [e1]
    have e2 : max (i * (max 1 totalPages) / (max 1 n) + 1)
        (min ((i + 1) * (max 1 totalPages) / (max 1 n)) (max 1 totalPages))
        = (i + 1) * (max 1 totalPages) / (max 1 n) := by
      rw [Nat.min_eq_left hend_le, Nat.max_eq_right hdiv_ge]
    rw [e2]
  exact ⟨even_ranges_length n totalPages, hval, hchain, hcov, hformula⟩

/-- C8 counterexample: for 3 sections over 2 pages the code returns
`[(1,1), (1,1), (2,2)]`, but the claimed formula gives section 0 the
range `⌊0·2/3⌋+1 .. ⌊1·2/3⌋ = (1, 0)` — the `end = max(start, min(end,
P))` clamp departs from the claimed formula whenever `P < n` (and
produces repeated, overlapping ranges). -/
theorem even_partition_fallback_counterexample :
    even_ranges 3 2 = [(1, 1), (1, 1), (2, 2)]
    ∧ ((1 : Nat), (1 : Nat)) ≠ ((0 * 2 / 3 + 1 : Nat), (1 * 2 / 3 : Nat)) := by
  constructor
  · decide
  · decide

/-- Witness for C8: for `n = 2`, `P = 4` the exact floor formula holds,
and for `n = 3`, `P = 2` page 1 is still covered. -/
theorem even_partition_fallback_witness :
    even_ranges 2 4 = [(1, 2), (3, 4)]
    ∧ ∃ r ∈ even_ranges 3 2, r.1 ≤ 1 ∧ 1 ≤ r.2 := by
  constructor
  · have h := (even_partition_fallback 2 4).2.2.2.2 (by decide)
    rw [h]
    decide
  · exact (even_partition_fallback 3 2).2.2.2.1 1 (by decide) (by decide)

/- ─────────────── C9: unsupported-format failure ─────────────── -/

/-- C9 — Unsupported-format failure: when the (lower-cased) extension of
the input path is not among `.pdf`, `.docx`, `.doc`, `.txt`,
`extract_text` raises the typed "Unsupported file type" error, the whole
`builder_views.generate_deck` run fails immediately with that same error
and no card list is produced; for a supported extension the error branch
is not taken and the run produces a card list. -/
theorem unsupported_format_failure (readPdf readDocx readTxt : String → String)
    (tokLen : List Char → Nat) (genCards : String → List PyCard)
    (path : String) :
    (strLower (pySuffix path) ∉ ([".pdf", ".docx", ".doc", ".txt"] : List String) →
      extract_text readPdf readDocx readTxt path
          = Except.error ("Unsupported file type: " ++ strLower (pySuffix path))
        ∧ builder_generate_deck readPdf readDocx readTxt tokLen genCards path
          = Except.error ("Unsupported file type: " ++ strLower (pySuffix path)))
    ∧ (strLower (pySuffix path) ∈ ([".pdf", ".docx", ".doc", ".txt"] : List String) →
      ∃ cards, builder_generate_deck readPdf readDocx readTxt tokLen genCards path
          = Except.ok cards) := by
  constructor
  · intro hnot
    simp only [List.mem_cons, List.not_mem_nil, or_false, not_or] at hnot
    obtain ⟨h1, h2, h3, h4⟩ := hnot
    have hext : extract_text readPdf readDocx readTxt path
        = Except.error ("Unsupported file type: " ++ strLower (pySuffix path)) := by
      unfold extract_text
      rw [if_neg h1, if_neg (by tauto), if_neg h4]
    refine ⟨hext, ?_⟩
    unfold builder_generate_deck
    rw [hext]
  · intro hmem
    simp only [List.mem_cons, List.not_mem_nil, or_false] at hmem
    unfold builder_generate_deck extract_text
    rcases hmem with h | h | h | h
    · rw [if_pos h]
      exact ⟨_, rfl⟩
    · rw [if_neg (by rw [h]; intro hc; exact absurd hc (by decide)),
        if_pos (Or.inl h)]
      exact ⟨_, rfl⟩
    · rw [if_neg (by rw [h]; intro hc; exact absurd hc (by decide)),
        if_pos (Or.inr h)]
      exact ⟨_, rfl⟩
    · rw [if_neg (by rw [h]; intro hc; exact absurd hc (by decide)),
        if_neg (by rw [h]; intro hc; rcases hc with hc | hc <;>
          exact absurd hc (by decide)),
        if_pos h]
      exact ⟨_, rfl⟩

/-- Witness for C9: a `.xyz` file fails with the typed error; a `.pdf`
file takes the success branch. -/
theorem unsupported_format_failure_witness :
    builder_generate_deck (fun _ => "") (fun _ => "") (fun _ => "")
        (fun _ => 0) (fun _ => []) "notes.xyz"
      = Except.error "Unsupported file type: .xyz"
    ∧ ∃ cards, builder_generate_deck (fun _ => "") (fun _ => "") (fun _ => "")
        (fun _ => 0) (fun _ => []) "notes.pdf" = Except.ok cards := by
  constructor
  · have h := (unsupported_format_failure (fun _ => "") (fun _ => "")
      (fun _ => "") (fun _ => 0) (fun _ => []) "notes.xyz").1 (by decide)
    rw [h.2]
    congr 1
  · exact (unsupported_format_failure (fun _ => "") (fun _ => "")
      (fun _ => "") (fun _ => 0) (fun _ => []) "notes.pdf").2 (by decide)

/- ─────────────── C10: chunking is lossless ─────────────── -/

theorem intercalate_single (sep x : List Char) : List.intercalate sep [x] = x := by
  simp [List.intercalate]

theorem intercalate_cons₂ (sep a b : List Char) (l : List (List Char)) :
    List.intercalate sep (a :: b :: l) = a ++ sep ++ List.intercalate sep (b :: l) := by
  simp [List.intercalate, List.intersperse]

theorem intercalate_cons_head (sep : List Char) (c : Char) (p : List Char)
    (ps : List (List Char)) :
    List.intercalate sep ((c :: p) :: ps) = c :: List.intercalate sep (p :: ps) := by
  cases ps with
  | nil => rw [intercalate_single, intercalate_single]
  | cons q qs => rw [intercalate_cons₂, intercalate_cons₂]; rfl

theorem splitParas_ne_nil (l : List Char) : splitParas l ≠ [] := by
  rw [splitParas.eq_def]
  split
  · simp
  · simp
  · split <;> simp

theorem intercalate_splitParas (l : List Char) :
    List.intercalate newline2 (splitParas l) = l := by
  induction l using splitParas.induct with
  | case1 =>
    rw [show splitParas [] = [[]] from rfl, intercalate_single]
  | case2 rest ih =>
    rw [show splitParas ('\n' :: '\n' :: rest) = [] :: splitParas rest from rfl]
    obtain ⟨p, ps, hps⟩ : ∃ p ps, splitParas rest = p :: ps := by
      rcases h : splitParas rest with _ | ⟨p, ps⟩
      · exact absurd h (splitParas_ne_nil rest)
      · exact ⟨p, ps, rfl⟩
    rw [hps] at ih ⊢
    rw [intercalate_cons₂, List.nil_append, ih]
    rfl
  | case3 c rest hg hnil ih =>
    exact absurd hnil (splitParas_ne_nil rest)
  | case4 c rest hg p ps hps ih =>
    have heq : splitParas (c :: rest) = (c :: p) :: ps := by
      rw [splitParas.eq_def]
      split
    
      · next heq2 => exact absurd (congrArg List.length heq2) (by simp)
      · next c2 rest2 heq2 =>
        obtain ⟨hc, hrest⟩ : c = '\n' ∧ rest = '\n' :: rest2 := by
          have h1 := congrArg List.head? heq2
          have h2 := congrArg List.tail heq2
          simp at h1 h2
          exact ⟨h1, h2⟩
        exact absurd trivial (fun _ => hg rest2 hc hrest)
      · next c2 rest2 hg2 heq2 =>
        obtain ⟨hc, hrest⟩ : c2 = c ∧ rest2 = rest := by
          have h1 := congrArg List.head? heq2
          have h2 := congrArg List.tail heq2
          simp at h1 h2
          exact ⟨h1.symm, h2.symm⟩
        subst hc
        subst hrest
        rw [hps]
    rw [heq, intercalate_cons_head, ← hps, ih]

theorem chunkAux_flatten (tokLen : List Char → Nat) (maxT : Int) :
    ∀ (ps buf : List (List Char)) (tally : Nat),
      (chunkAux tokLen maxT ps buf tally).flatten = buf ++ ps := by
  intro ps
  induction ps with
  | nil =>
    intro buf tally
    cases buf with
    | nil => simp [chunkAux]
    | cons x xs => simp [chunkAux]
  | cons p ps' ih =>
    intro buf tally
    by_cases hc : (((tally : Int) + tokLen p > maxT) ∧ ¬ buf.isEmpty)
    · rw [show chunkAux tokLen maxT (p :: ps') buf tally
          = buf :: chunkAux tokLen maxT ps' [p] (tokLen p) from by
        simp only [chunkAux, if_pos hc]]
      rw [List.flatten_cons, ih]
      simp
    · rw [show chunkAux tokLen maxT (p :: ps') buf tally
          = chunkAux tokLen maxT ps' (buf ++ [p]) (tally + tokLen p) from by
        simp only [chunkAux, if_neg hc]]
      rw [ih]
      simp

theorem chunkAux_groups_ne_nil (tokLen : List Char → Nat) (maxT : Int) :
    ∀ (ps buf : List (List Char)) (tally : Nat) (g : List (List Char)),
      g ∈ chunkAux tokLen maxT ps buf tally → g ≠ [] := by
  intro ps
  induction ps with
  | nil =>
    intro buf tally g hg
    cases buf with
    | nil => simp [chunkAux] at hg
    | cons x xs =>
      simp [chunkAux] at hg
      rw [hg]
      simp
  | cons p ps' ih =>
    intro buf tally g hg
    by_cases hc : (((tally : Int) + tokLen p > maxT) ∧ ¬ buf.isEmpty)
    · rw [show chunkAux tokLen maxT (p :: ps') buf tally
          = buf :: chunkAux tokLen maxT ps' [p] (tokLen p) from by
        simp only [chunkAux, if_pos hc]] at hg
      rcases List.mem_cons.mp hg with rfl | hg'
      · intro hcon
        rw [hcon] at hc
        exact hc.2 rfl
      · exact ih _ _ g hg'
    · rw [show chunkAux tokLen maxT (p :: ps') buf tally
          = chunkAux tokLen maxT ps' (buf ++ [p]) (tally + tokLen p) from by
        simp only [chunkAux, if_neg hc]] at hg
      exact ih _ _ g hg

theorem intercalate_append_of_ne (sep : List Char) :
    ∀ (a b : List (List Char)), a ≠ [] → b ≠ [] →
      List.intercalate sep (a ++ b)
        = List.intercalate sep a ++ sep ++ List.intercalate sep b := by
  intro a
  induction a with
  | nil => intro b h _; exact absurd rfl h
  | cons x a' ih =>
    intro b _ hb
    cases a' with
    | nil =>
      cases b with
      | nil => exact absurd rfl hb
      | cons y bs =>
        rw [show ([x] : List (List Char)) ++ y :: bs = x :: y :: bs from rfl]
        rw [intercalate_cons₂, intercalate_single]
    | cons z a'' =>
      rw [show (x :: z :: a'') ++ b = x :: ((z :: a'') ++ b) from rfl]
      have hzb : (z :: a'') ++ b = z :: (a'' ++ b) := rfl
      rw [hzb, intercalate_cons₂, ← hzb, ih b (by simp) hb, intercalate_cons₂]
      simp [List.append_assoc]

theorem intercalate_flatten_groups (sep : List Char) :
    ∀ (groups : List (List (List Char))),
      (∀ g ∈ groups, g ≠ []) →
      List.intercalate sep (groups.map (List.intercalate sep))
        = List.intercalate sep groups.flatten := by
  intro groups
  induction groups with
  | nil => intro _; rfl
  | cons g gs ih =>
    intro hne
    cases gs with
    | nil =>
      rw [List.map_cons, List.map_nil, intercalate_single]
      simp
    | cons g2 gs' =>
      rw [List.map_cons, List.map_cons, intercalate_cons₂, ← List.map_cons,
        ih (fun x hx => hne x (List.mem_cons_of_mem _ hx))]
      have hfl : (g2 :: gs').flatten ≠ [] := by
        rw [List.flatten_cons]
        have hg2 := hne g2 (List.mem_cons_of_mem _ (List.mem_cons_self _ _))
        intro hcon
        rcases List.append_eq_nil.mp hcon with ⟨h1, _⟩
        exact hg2 h1
      rw [show (g :: g2 :: gs').flatten = g ++ (g2 :: gs').flatten from rfl]
      rw [intercalate_append_of_ne sep g (g2 :: gs').flatten
        (hne g (List.mem_cons_self _ _)) hfl]

/-- C10 — Chunking is lossless: joining the chunks returned by
`make_chunks` with the paragraph separator `"\n\n"` reconstructs the
input text exactly, for every token counter and every `max_tokens`; and
the buffer loop's groups flatten back to the paragraph list (prefixed by
the initial buffer), so no paragraph is dropped, duplicated or
reordered. -/
theorem make_chunks_lossless (tokLen : List Char → Nat) (maxT : Int)
    (text : String) :
    pyJoin "\n\n" (make_chunks tokLen maxT text) = text
    ∧ ∀ (ps buf : List (List Char)) (tally : Nat),
        (chunkAux tokLen maxT ps buf tally).flatten = buf ++ ps := by
  refine ⟨?_, chunkAux_flatten tokLen maxT⟩
  unfold pyJoin make_chunks
  rw [List.map_map]
  have hcomp : (String.data ∘ fun g : List (List Char) =>
      String.mk (List.intercalate newline2 g)) = List.intercalate newline2 := rfl
  rw [hcomp]
  have hsep : ("\n\n" : String).data = newline2 := rfl
  rw [hsep]
  rw [intercalate_flatten_groups newline2 _
    (fun g hg => chunkAux_groups_ne_nil tokLen maxT _ _ _ g hg)]
  rw [chunkAux_flatten, List.nil_append, intercalate_splitParas]
